import Mathlib

/-!
# Verification of the fluent-interface batch sorting and identity logic

A shallow embedding of `great_expectations/datasource/fluent/interfaces.py`:
the `Sorter` parsing helpers (`_sorter_from_str`, `_sorter_from_list`,
`Datasource.parse_order_by_sorters`), the batch comparison function
(`_sort_batches_with_none_metadata_values` / its inner `_compare_function`),
the multi-pass stable sort `DataAsset.sort_batches`, and the batch identity
computation `Batch._set_id`.

Conventions of the embedding:
* Python exceptions become the explicit error type `GxError` threaded through
  `Except`.  `GxError.valueError` stands for Python `ValueError` (the spec
  calls these `InvalidSorterError` when raised during sorter parsing),
  `GxError.keyError` for a raw `KeyError` from a metadata dict lookup,
  `GxError.sortKeyNotFoundError` for the `KeyError` re-raised by
  `sort_batches` with the asset name and sort key in its message (the spec
  calls it `SortKeyNotFoundError`), `GxError.typeError` / `GxError.indexError`
  for Python `TypeError` / `IndexError`.
* Batch metadata is a string-keyed mapping whose values may be `None`
  (Python `None` is `Option.none`); a key can also be absent entirely.
  The mapping is modelled as an association list with distinct keys, the
  values drawn from `Option α` for a linearly ordered `α`.
* Python's `list.sort(key=cmp_to_key(c), reverse=rev)` is a stable sort by the
  comparator `c`, with `reverse=True` giving the stable descending order,
  which is exactly the stable ascending sort by the negated comparator.  It is
  modelled by a stable insertion sort in the `Except` monad; the comparator is
  invoked only when the list has at least two elements, as in CPython.
-/

/-- The Python exceptions raised by the embedded code. -/
inductive GxError : Type where
  | valueError (msg : String)
  | keyError (key : String)
  | sortKeyNotFoundError (assetName key : String)
  | typeError
  | indexError
deriving DecidableEq, Repr

/-- `class Sorter` (a frozen pydantic dataclass): a sort key plus a
direction flag, `reverse` defaulting to `False`. -/
structure Sorter where
  key : String
  reverse : Bool := false
deriving DecidableEq, Repr

/-- One element of a `SortersDefinition` list: either an already-canonical
`Sorter`, a string shorthand, or a dict shorthand.  A Python dict shorthand
is represented by its `"key"` entry (absent or a string; Python truthiness of
a string is non-emptiness) and its `"reverse"` entry (absent or a bool). -/
inductive SElem : Type where
  | sorter (s : Sorter)
  | str (s : String)
  | dict (key : Option String) (reverse : Option Bool)
deriving DecidableEq, Repr

/-- The slice of `class Batch` that the sorting logic reads: its `metadata`
mapping.  `metadata` maps string keys to values that may be Python `None`. -/
structure Batch (α : Type) where
  metadata : List (String × Option α)
deriving DecidableEq, Repr

/-- Lookup in a metadata dict: `none` means the key is absent entirely
(a Python `KeyError` on subscripting), `some v` means the key is present with
value `v` (which may itself be Python `None`, i.e. `Option.none`). -/
def metaLookup {α : Type} (m : List (String × Option α)) (k : String) :
    Option (Option α) :=
  match m with
  | [] => none
  | (k', v) :: rest => if k' = k then some v else metaLookup rest k

/-- `b.metadata[key]` as an effectful lookup: raises `KeyError` when the key
is absent. -/
def Batch.metaGet {α : Type} (b : Batch α) (key : String) :
    Except GxError (Option α) :=
  match metaLookup b.metadata key with
  | none => .error (.keyError key)
  | some v => .ok v

/-- The metadata value of `b` at `key`, defaulting to `None` — used only to
state pure facts about batches whose metadata is known to contain `key`. -/
def mvalD {α : Type} (b : Batch α) (key : String) : Option α :=
  (metaLookup b.metadata key).getD none

/-- Whether `key` is present in the metadata of `b` (its value may be null). -/
def Batch.hasKey {α : Type} (b : Batch α) (key : String) : Bool :=
  (metaLookup b.metadata key).isSome

/-- Whether `key` is present in the metadata of `b` with a non-null value. -/
def Batch.hasNonNull {α : Type} (b : Batch α) (key : String) : Bool :=
  match metaLookup b.metadata key with
  | some (some _) => true
  | _ => false

/-! ## Sorter parsing -/

/-- `_sorter_from_str`: an optional leading `-` or `+` sets `reverse`; the
rest of the string is the key.  Subscripting an empty string raises
`IndexError` (`sort_key[0]`). -/
def _sorter_from_str (sort_key : String) : Except GxError Sorter :=
  match sort_key.data with
  | [] => .error .indexError
  | c :: rest =>
    if c = '-' then .ok { key := String.mk rest, reverse := true }
    else if c = '+' then .ok { key := String.mk rest, reverse := false }
    else .ok { key := sort_key, reverse := false }

/-- `_is_sorter_list`: true when the list is empty or its first element is a
`Sorter` (a type guard judging the whole list by its head). -/
def _is_sorter_list (sorters : List SElem) : Bool :=
  match sorters with
  | [] => true
  | .sorter _ :: _ => true
  | _ => false

/-- `_is_str_sorter_list`: true when the list is nonempty and its first
element is a string. -/
def _is_str_sorter_list (sorters : List SElem) : Bool :=
  match sorters with
  | .str _ :: _ => true
  | _ => false

/-- Applying `_sorter_from_str` to an arbitrary list element, as the list
comprehension in `_sorter_from_list` does: on a `Sorter` object, `obj[0]`
raises `TypeError` (not subscriptable); on a dict, `d[0]` raises `KeyError`. -/
def _sorter_from_str_any (e : SElem) : Except GxError Sorter :=
  match e with
  | .str s => _sorter_from_str s
  | .sorter _ => .error .typeError
  | .dict _ _ => .error (.keyError "0")

/-- The list comprehension
`[_sorter_from_str(s) for s in sorters]`, evaluated left to right, raising at
the first failing element. -/
def _sorter_from_str_map (sorters : List SElem) : Except GxError (List Sorter) :=
  match sorters with
  | [] => .ok []
  | e :: rest => do
    let s ← _sorter_from_str_any e
    let tail ← _sorter_from_str_map rest
    pure (s :: tail)

/-- `_sorter_from_list`: if the head is a `Sorter` (or the list is empty) the
list is returned unchanged; if the head is a string, every element is
converted by `_sorter_from_str`; otherwise `ValueError`.  The result keeps the
heterogeneous element type because the first fast path returns the input list
as-is. -/
def _sorter_from_list (sorters : List SElem) : Except GxError (List SElem) :=
  if _is_sorter_list sorters then .ok sorters
  else if _is_str_sorter_list sorters then
    (_sorter_from_str_map sorters).map (List.map SElem.sorter)
  else .error (.valueError "sorters is a not a SortersDefinition")

/-- The body of the loop in `Datasource.parse_order_by_sorters`, converting a
single element of the `order_by` list. -/
def parse_order_by_elem (e : SElem) : Except GxError Sorter :=
  match e with
  | .str s =>
    if s = "" then
      .error (.valueError "\"order_by\" list cannot contain an empty string")
    else _sorter_from_str s
  | .dict key reverse =>
    if (key.getD "" ≠ "") ∧ reverse.getD false then
      .ok { key := key.getD "", reverse := reverse.getD false }
    else if key.getD "" ≠ "" then
      .ok { key := key.getD "" }
    else .error (.valueError "\"order_by\" list dict must have a key named \"key\"")
  | .sorter s => .ok s

/-- The loop of `Datasource.parse_order_by_sorters` over a list of elements,
appending each converted sorter and raising at the first malformed element. -/
def parse_order_by_loop (l : List SElem) : Except GxError (List Sorter) :=
  match l with
  | [] => .ok []
  | e :: rest => do
    let s ← parse_order_by_elem e
    let tail ← parse_order_by_loop rest
    pure (s :: tail)

/-- `Datasource.parse_order_by_sorters`: `None` (or an empty list, both falsy)
yields `[]`; otherwise each element is converted by shape. -/
def Datasource.parse_order_by_sorters (order_by : Option (List SElem)) :
    Except GxError (List Sorter) :=
  match order_by with
  | none => .ok []
  | some l => parse_order_by_loop l

/-! ## The batch comparator and the multi-pass sort -/

/-- Python `a < b` on two metadata values known (from the enclosing guard) to
be non-null; the catch-all is never consulted under that guard. -/
def optLt {α : Type} [LinearOrder α] (x y : Option α) : Bool :=
  match x, y with
  | some a, some b => decide (a < b)
  | _, _ => false

/-- `_compare_function` inside `_sort_batches_with_none_metadata_values`:
look up `key` in both metadata dicts (raising `KeyError` when absent), then
the four-way case split from the source, ending with the guarded
`raise ValueError` on the structurally unreachable final branch. -/
def _compare_function {α : Type} [LinearOrder α] (key : String)
    (a b : Batch α) : Except GxError Int := do
  let va ← a.metaGet key
  let vb ← b.metaGet key
  if va.isSome ∧ vb.isSome then
    if optLt va vb then pure (-1)
    else if optLt vb va then pure 1
    else pure 0
  else if va.isNone ∧ vb.isNone then pure 0
  else if va.isNone then pure (-1)
  else if va.isSome then pure 1
  else .error (.valueError "Unexpected Batch metadata key combination was encountered.")

/-- `_sort_batches_with_none_metadata_values` returns the comparison closure
for a given key. -/
def _sort_batches_with_none_metadata_values {α : Type} [LinearOrder α]
    (key : String) : Batch α → Batch α → Except GxError Int :=
  _compare_function key

/-- The comparator actually used by one `batch_list.sort(...)` pass:
`reverse=True` makes the stable sort descending, which is the stable
ascending sort by the negated comparator. -/
def passCmpE {α : Type} [LinearOrder α] (s : Sorter) (a b : Batch α) :
    Except GxError Int :=
  (_sort_batches_with_none_metadata_values s.key a b).map
    (fun c => if s.reverse then -c else c)

/-- Stable insertion into a sorted list with a fallible comparator: the new
element is placed before the first element not strictly smaller than it.
Elements already in the list come earlier in the original order, so this
realizes the stability of Python's sort. -/
def orderedInsertE {γ : Type} (cmp : γ → γ → Except GxError Int) (x : γ) :
    List γ → Except GxError (List γ)
  | [] => .ok [x]
  | y :: ys => do
    let c ← cmp x y
    if c ≤ 0 then pure (x :: y :: ys)
    else do
      let zs ← orderedInsertE cmp x ys
      pure (y :: zs)

/-- Stable sort with a fallible comparator, modelling
`batch_list.sort(key=functools.cmp_to_key(...))`: like CPython's sort it
invokes the comparator only on lists of length at least two. -/
def insertionSortE {γ : Type} (cmp : γ → γ → Except GxError Int) :
    List γ → Except GxError (List γ)
  | [] => .ok []
  | x :: xs => do
    let s ← insertionSortE cmp xs
    orderedInsertE cmp x s

/-- One `batch_list.sort(...)` call inside the `try` of `sort_batches`: a
`KeyError` escaping the comparator is re-raised as a `KeyError` whose message
names the owning asset and the sort key (the spec's `SortKeyNotFoundError`);
any other exception propagates unchanged. -/
def sortBatchesPass {α : Type} [LinearOrder α] (assetName : String)
    (s : Sorter) (batchList : List (Batch α)) :
    Except GxError (List (Batch α)) :=
  match insertionSortE (passCmpE s) batchList with
  | .ok r => .ok r
  | .error (.keyError _) => .error (.sortKeyNotFoundError assetName s.key)
  | .error e => .error e

/-- `DataAsset.sort_batches`: `for sorter in reversed(self.order_by)` run one
stable sort per sorter, the last sorter first, so that earlier (higher
priority) sorters are applied last. -/
def DataAsset.sort_batches {α : Type} [LinearOrder α] (assetName : String) :
    List Sorter → List (Batch α) → Except GxError (List (Batch α))
  | [], batchList => .ok batchList
  | s :: rest, batchList => do
    let m ← DataAsset.sort_batches assetName rest batchList
    sortBatchesPass assetName s m

/-! ## Batch identity -/

/-- Python `sep.join(parts)`. -/
def strJoin (sep : String) : List String → String
  | [] => ""
  | [x] => x
  | x :: y :: rest => x ++ sep ++ strJoin sep (y :: rest)

/-- The loop of `Batch._set_id` building `options_list`: one component
`f"{key}_{value}"` per options entry whose key is not `"path"`, in iteration
order.  Option values are taken already formatted as strings. -/
def setIdOptionsList : List (String × String) → List String
  | [] => []
  | (k, v) :: rest =>
    if k = "path" then setIdOptionsList rest
    else (k ++ "_" ++ v) :: setIdOptionsList rest

/-- `Batch._set_id`: join the datasource name, the data asset name, and the
non-path option components with `-`. -/
def Batch._set_id (datasourceName dataAssetName : String)
    (options : List (String × String)) : String :=
  strJoin "-" (datasourceName :: dataAssetName :: setIdOptionsList options)

/-! ## Pure counterparts of the sort, used to state and prove its properties -/

/-- Sign comparison of the possibly-null metadata values under the null-first
policy of `_compare_function`: both non-null compare by the value order, both
null are equal, a single null is smaller. -/
def cmpVal {α : Type} [LinearOrder α] : Option α → Option α → Int
  | some x, some y => if x < y then -1 else if y < x then 1 else 0
  | none, none => 0
  | none, some _ => -1
  | some _, none => 1

/-- The pure comparator of one sort pass: the value comparison at the
sorter's key, negated when `reverse` is set. -/
def passCmp {α : Type} [LinearOrder α] (s : Sorter) (a b : Batch α) : Int :=
  if s.reverse then -(cmpVal (mvalD a s.key) (mvalD b s.key))
  else cmpVal (mvalD a s.key) (mvalD b s.key)

/-- Lexicographic combination of two comparators: the second breaks ties of
the first. -/
def lexC {γ : Type} (c d : γ → γ → Int) (a b : γ) : Int :=
  if c a b = 0 then d a b else c a b

/-- Comparator constantly equal: every pair ties. -/
def zeroC {γ : Type} (_ _ : γ) : Int := 0

/-- The lexicographic comparator described by a sorter sequence: the first
sorter is the primary key and each later sorter breaks the remaining ties,
each key reversed according to its own flag. -/
def lexCmp {α : Type} [LinearOrder α] : List Sorter → Batch α → Batch α → Int
  | [] => zeroC
  | s :: rest => lexC (passCmp s) (lexCmp rest)

/-- Sign comparison of naturals, used to order position tags. -/
def intCmp (i j : Nat) : Int :=
  if i < j then -1 else if j < i then 1 else 0

/-- Pure stable insertion (the infallible counterpart of `orderedInsertE`). -/
def oInsertP {γ : Type} (cmp : γ → γ → Int) (x : γ) : List γ → List γ
  | [] => [x]
  | y :: ys => if cmp x y ≤ 0 then x :: y :: ys else y :: oInsertP cmp x ys

/-- Pure stable insertion sort (the infallible counterpart of
`insertionSortE`). -/
def iSortP {γ : Type} (cmp : γ → γ → Int) : List γ → List γ
  | [] => []
  | x :: xs => oInsertP cmp x (iSortP cmp xs)

/-- Tag every element with its position, starting at `n`. -/
def tagFrom {γ : Type} (n : Nat) : List γ → List (γ × Nat)
  | [] => []
  | x :: xs => (x, n) :: tagFrom (n + 1) xs

/-- The pure multi-pass sort: apply the sorters' stable sorts from the last
sorter to the first, as `sort_batches` does. -/
def multiPassP {α : Type} [LinearOrder α] :
    List Sorter → List (Batch α) → List (Batch α)
  | [], l => l
  | s :: rest, l => iSortP (passCmp s) (multiPassP rest l)

/-- A well-behaved comparator: a total preorder given by signs. -/
structure IsCmp {γ : Type} (cmp : γ → γ → Int) : Prop where
  antisymm : ∀ a b, cmp b a = -cmp a b
  trans : ∀ a b c, cmp a b ≤ 0 → cmp b c ≤ 0 → cmp a c ≤ 0

theorem IsCmp.refl {γ : Type} {cmp : γ → γ → Int} (h : IsCmp cmp) (a : γ) :
    cmp a a = 0 := by
  have := h.antisymm a a
  omega

theorem IsCmp.total {γ : Type} {cmp : γ → γ → Int} (h : IsCmp cmp) (a b : γ) :
    cmp a b ≤ 0 ∨ cmp b a ≤ 0 := by
  have := h.antisymm a b
  omega

theorem isCmp_zeroC {γ : Type} : IsCmp (zeroC (γ := γ)) := by
  constructor <;> intro a b <;> simp [zeroC]

theorem isCmp_intCmp_pair {γ : Type} :
    IsCmp (fun a b : γ × Nat => intCmp a.2 b.2) := by
  constructor
  · intro a b
    simp only [intCmp]
    split_ifs <;> omega
  · intro a b c hab hbc
    simp only [intCmp] at *
    split_ifs at * <;> omega

theorem isCmp_neg {γ : Type} {cmp : γ → γ → Int} (h : IsCmp cmp) :
    IsCmp (fun a b => -(cmp a b)) := by
  constructor
  · intro a b
    have := h.antisymm a b
    omega
  · intro a b c hab hbc
    have h1 := h.antisymm a b
    have h2 := h.antisymm b c
    have h3 := h.antisymm a c
    have := h.trans c b a (by omega) (by omega)
    omega

theorem isCmp_pullback {γ β : Type} {cmp : β → β → Int} (f : γ → β)
    (h : IsCmp cmp) : IsCmp (fun a b : γ => cmp (f a) (f b)) := by
  constructor
  · intro a b
    exact h.antisymm (f a) (f b)
  · intro a b c
    exact h.trans (f a) (f b) (f c)

theorem lexC_eq_zero {γ : Type} {c d : γ → γ → Int} {a b : γ} :
    lexC c d a b = 0 ↔ c a b = 0 ∧ d a b = 0 := by
  simp only [lexC]
  split_ifs with h <;> simp [h]

theorem isCmp_lexC {γ : Type} {c d : γ → γ → Int} (hc : IsCmp c)
    (hd : IsCmp d) : IsCmp (lexC c d) := by
  constructor
  · intro a b
    simp only [lexC]
    have h1 := hc.antisymm a b
    have h2 := hd.antisymm a b
    split_ifs <;> omega
  · intro a b e hab hbe
    simp only [lexC] at hab hbe ⊢
    by_cases h1 : c a b = 0 <;> by_cases h2 : c b e = 0
    · rw [if_pos h1] at hab
      rw [if_pos h2] at hbe
      have l4 : c e b ≤ 0 := by have := hc.antisymm b e; omega
      have l5 : c b a ≤ 0 := by have := hc.antisymm a b; omega
      have l6 : c e a ≤ 0 := hc.trans _ _ _ l4 l5
      have l3 : c a e ≤ 0 := hc.trans _ _ _ (le_of_eq h1) (le_of_eq h2)
      have h0 : c a e = 0 := by have := hc.antisymm a e; omega
      rw [if_pos h0]
      exact hd.trans _ _ _ hab hbe
    · rw [if_neg h2] at hbe
      have l3 : c a e ≤ 0 := hc.trans _ _ _ (le_of_eq h1) hbe
      have hne : ¬ c a e = 0 := by
        intro h0
        have l4 : c e a ≤ 0 := by have := hc.antisymm a e; omega
        have l5 : c e b ≤ 0 := hc.trans _ _ _ l4 (le_of_eq h1)
        have := hc.antisymm b e
        omega
      rw [if_neg hne]
      exact l3
    · rw [if_neg h1] at hab
      have l3 : c a e ≤ 0 := hc.trans _ _ _ hab (le_of_eq h2)
      have hne : ¬ c a e = 0 := by
        intro h0
        have l4 : c e a ≤ 0 := by have := hc.antisymm a e; omega
        have l5 : c b a ≤ 0 := hc.trans _ _ _ (le_of_eq h2) l4
        have := hc.antisymm a b
        omega
      rw [if_neg hne]
      exact l3
    · rw [if_neg h1] at hab
      rw [if_neg h2] at hbe
      have l3 : c a e ≤ 0 := hc.trans _ _ _ hab hbe
      have hne : ¬ c a e = 0 := by
        intro h0
        have l4 : c e a ≤ 0 := by have := hc.antisymm a e; omega
        have l5 : c e b ≤ 0 := hc.trans _ _ _ l4 hab
        have := hc.antisymm b e
        omega
      rw [if_neg hne]
      exact l3

theorem isCmp_cmpVal {α : Type} [LinearOrder α] :
    IsCmp (cmpVal (α := α)) := by
  constructor
  · intro a b
    match a, b with
    | some x, some y =>
      simp only [cmpVal]
      rcases lt_trichotomy x y with h | h | h
      · simp [h, lt_asymm h]
      · simp [h, lt_irrefl]
      · simp [h, lt_asymm h]
    | none, none => simp [cmpVal]
    | none, some _ => simp [cmpVal]
    | some _, none => simp [cmpVal]
  · intro a b e hab hbe
    match a, b, e with
    | none, _, none => simp [cmpVal]
    | none, _, some _ => simp [cmpVal]
    | some x, none, _ => simp [cmpVal] at hab
    | some x, some y, none => simp [cmpVal] at hbe
    | some x, some y, some z =>
      simp only [cmpVal] at hab hbe ⊢
      have hxy : x ≤ y := by
        by_contra h
        push_neg at h
        rw [if_neg (not_lt_of_lt h), if_pos h] at hab
        omega
      have hyz : y ≤ z := by
        by_contra h
        push_neg at h
        rw [if_neg (not_lt_of_lt h), if_pos h] at hbe
        omega
      have hxz : x ≤ z := le_trans hxy hyz
      rw [if_neg (not_lt_of_le hxz)]
      split_ifs <;> omega

theorem isCmp_passCmp {α : Type} [LinearOrder α] (s : Sorter) :
    IsCmp (passCmp (α := α) s) := by
  have base : IsCmp (fun a b : Batch α =>
      cmpVal (mvalD a s.key) (mvalD b s.key)) :=
    isCmp_pullback (fun b => mvalD b s.key) isCmp_cmpVal
  have neg := isCmp_neg base
  constructor
  · intro a b
    by_cases h : s.reverse
    · simpa [passCmp, h] using neg.antisymm a b
    · simpa [passCmp, h] using base.antisymm a b
  · intro a b e hab hbe
    by_cases h : s.reverse
    · simp only [passCmp, h, if_true] at hab hbe ⊢
      exact neg.trans a b e hab hbe
    · simp only [passCmp, h, if_false] at hab hbe ⊢
      exact base.trans a b e hab hbe

theorem isCmp_lexCmp {α : Type} [LinearOrder α] (sorters : List Sorter) :
    IsCmp (lexCmp (α := α) sorters) := by
  induction sorters with
  | nil => exact isCmp_zeroC
  | cons s rest ih => exact isCmp_lexC (isCmp_passCmp s) ih

/-! ## Facts about the pure stable sort -/

theorem oInsertP_perm {γ : Type} (cmp : γ → γ → Int) (x : γ) :
    ∀ t : List γ, List.Perm (oInsertP cmp x t) (x :: t)
  | [] => List.Perm.refl _
  | y :: ys => by
    simp only [oInsertP]
    split_ifs with h
    · exact List.Perm.refl _
    · exact (List.Perm.cons y (oInsertP_perm cmp x ys)).trans
        (List.Perm.swap x y ys)

theorem iSortP_perm {γ : Type} (cmp : γ → γ → Int) :
    ∀ l : List γ, List.Perm (iSortP cmp l) l
  | [] => List.Perm.refl _
  | x :: xs =>
    (oInsertP_perm cmp x (iSortP cmp xs)).trans
      (List.Perm.cons x (iSortP_perm cmp xs))

theorem mem_iSortP {γ : Type} {cmp : γ → γ → Int} {l : List γ} {a : γ} :
    a ∈ iSortP cmp l ↔ a ∈ l :=
  (iSortP_perm cmp l).mem_iff

theorem mem_oInsertP {γ : Type} {cmp : γ → γ → Int} {x : γ} {t : List γ}
    {a : γ} : a ∈ oInsertP cmp x t ↔ a = x ∨ a ∈ t := by
  rw [(oInsertP_perm cmp x t).mem_iff]
  simp

theorem oInsertP_sorted {γ : Type} {cmp : γ → γ → Int} (h : IsCmp cmp)
    {x : γ} {t : List γ}
    (ht : List.Pairwise (fun a b => cmp a b ≤ 0) t) :
    List.Pairwise (fun a b => cmp a b ≤ 0) (oInsertP cmp x t) := by
  induction t with
  | nil => simp [oInsertP]
  | cons y ys ih =>
    rcases List.pairwise_cons.mp ht with ⟨hy, hys⟩
    simp only [oInsertP]
    split_ifs with hxy
    · refine List.pairwise_cons.mpr ⟨?_, ht⟩
      intro b hb
      rcases List.mem_cons.mp hb with rfl | hb
      · exact hxy
      · exact h.trans x y b hxy (hy b hb)
    · have hyx : cmp y x ≤ 0 := by have := h.antisymm x y; omega
      refine List.pairwise_cons.mpr ⟨?_, ih hys⟩
      intro b hb
      rcases mem_oInsertP.mp hb with rfl | hb
      · exact hyx
      · exact hy b hb

theorem iSortP_sorted {γ : Type} {cmp : γ → γ → Int} (h : IsCmp cmp) :
    ∀ l : List γ, List.Pairwise (fun a b => cmp a b ≤ 0) (iSortP cmp l)
  | [] => List.Pairwise.nil
  | _ :: xs => oInsertP_sorted h (iSortP_sorted h xs)

theorem iSortP_of_sorted {γ : Type} {cmp : γ → γ → Int} {l : List γ}
    (hl : List.Pairwise (fun a b => cmp a b ≤ 0) l) : iSortP cmp l = l := by
  induction l with
  | nil => rfl
  | cons x xs ih =>
    rcases List.pairwise_cons.mp hl with ⟨hx, hxs⟩
    simp only [iSortP, ih hxs]
    cases xs with
    | nil => rfl
    | cons y ys =>
      simp only [oInsertP, if_pos (hx y (List.mem_cons_self y ys))]

theorem intCmp_eq_zero {i j : Nat} : intCmp i j = 0 ↔ i = j := by
  unfold intCmp
  rcases Nat.lt_trichotomy i j with h | h | h
  · rw [if_pos h]
    exact ⟨fun hc => by omega, fun hc => by omega⟩
  · rw [if_neg (by omega), if_neg (by omega)]
    exact ⟨fun _ => h, fun _ => rfl⟩
  · rw [if_neg (by omega), if_pos h]
    exact ⟨fun hc => by omega, fun hc => by omega⟩

/-! ## The tagging argument: composing stable sorts is a lexicographic sort -/

theorem oInsertP_map_fst {γ β : Type} (c D : γ → γ → Int) (f : γ → β)
    (cmp : β → β → Int) (hpull : ∀ a b, c a b = cmp (f a) (f b)) (x : γ) :
    ∀ t : List γ, (∀ y ∈ t, D x y < 0) →
      List.map f (oInsertP (lexC c D) x t) = oInsertP cmp (f x) (List.map f t)
  | [], _ => rfl
  | y :: ys, hxt => by
    have hd : D x y < 0 := hxt y (List.mem_cons_self y ys)
    have hcond : lexC c D x y ≤ 0 ↔ cmp (f x) (f y) ≤ 0 := by
      rw [← hpull x y]
      simp only [lexC]
      by_cases hc : c x y = 0 <;> simp [hc]
      omega
    simp only [oInsertP, List.map_cons]
    by_cases hx : lexC c D x y ≤ 0
    · rw [if_pos hx, if_pos (hcond.mp hx)]
      simp
    · rw [if_neg hx, if_neg (fun hcc => hx (hcond.mpr hcc))]
      simp only [List.map_cons]
      rw [oInsertP_map_fst c D f cmp hpull x ys
        (fun z hz => hxt z (List.mem_cons_of_mem y hz))]

theorem iSortP_map_fst {γ β : Type} (c D : γ → γ → Int) (f : γ → β)
    (cmp : β → β → Int) (hpull : ∀ a b, c a b = cmp (f a) (f b)) :
    ∀ t : List γ, List.Pairwise (fun a b => D a b < 0) t →
      List.map f (iSortP (lexC c D) t) = iSortP cmp (List.map f t)
  | [], _ => rfl
  | x :: t', ht => by
    rcases List.pairwise_cons.mp ht with ⟨hx, ht'⟩
    simp only [iSortP, List.map_cons]
    rw [← iSortP_map_fst c D f cmp hpull t' ht']
    exact oInsertP_map_fst c D f cmp hpull x _
      (fun y hy => hx y (mem_iSortP.mp hy))

theorem tagFrom_map_fst {γ : Type} :
    ∀ (n : Nat) (l : List γ), List.map Prod.fst (tagFrom n l) = l
  | _, [] => rfl
  | n, x :: xs => by simp [tagFrom, tagFrom_map_fst (n + 1) xs]

theorem tagFrom_snd_lb {γ : Type} :
    ∀ {n : Nat} {l : List γ} {p : γ × Nat}, p ∈ tagFrom n l → n ≤ p.2 := by
  intro n l
  induction l generalizing n with
  | nil => intro p hp; simp [tagFrom] at hp
  | cons x xs ih =>
    intro p hp
    rcases List.mem_cons.mp hp with rfl | hp
    · exact Nat.le_refl n
    · exact Nat.le_of_succ_le (ih hp)

theorem tagFrom_pairwise {γ : Type} :
    ∀ (n : Nat) (l : List γ),
      List.Pairwise (fun a b : γ × Nat => intCmp a.2 b.2 < 0) (tagFrom n l)
  | _, [] => List.Pairwise.nil
  | n, x :: xs => by
    refine List.pairwise_cons.mpr ⟨?_, tagFrom_pairwise (n + 1) xs⟩
    intro b hb
    have := tagFrom_snd_lb hb
    simp only [intCmp]
    split_ifs <;> omega

theorem tagFrom_snd_inj {γ : Type} :
    ∀ {n : Nat} {l : List γ} {a b : γ × Nat}, a ∈ tagFrom n l →
      b ∈ tagFrom n l → a.2 = b.2 → a = b := by
  intro n l
  induction l generalizing n with
  | nil => intro a b ha; simp [tagFrom] at ha
  | cons x xs ih =>
    intro a b ha hb hab
    rcases List.mem_cons.mp ha with rfl | ha <;>
      rcases List.mem_cons.mp hb with rfl | hb
    · rfl
    · have := tagFrom_snd_lb hb
      omega
    · have := tagFrom_snd_lb ha
      omega
    · exact ih ha hb hab

theorem sorted_perm_unique {γ : Type} {cmp : γ → γ → Int} (h : IsCmp cmp) :
    ∀ {l₁ l₂ : List γ}, List.Perm l₁ l₂ →
      List.Pairwise (fun a b => cmp a b ≤ 0) l₁ →
      List.Pairwise (fun a b => cmp a b ≤ 0) l₂ →
      (∀ a ∈ l₁, ∀ b ∈ l₁, cmp a b = 0 → a = b) → l₁ = l₂ := by
  intro l₁
  induction l₁ with
  | nil =>
    intro l₂ hp _ _ _
    exact (hp.symm.eq_nil).symm
  | cons x t₁ ih =>
    intro l₂ hp hs₁ hs₂ hanti
    cases l₂ with
    | nil => simpa using hp.eq_nil
    | cons y t₂ =>
      have hyl₁ : y ∈ x :: t₁ := hp.mem_iff.mpr (List.mem_cons_self y t₂)
      have hxl₂ : x ∈ y :: t₂ := hp.mem_iff.mp (List.mem_cons_self x t₁)
      have hxy : cmp x y ≤ 0 := by
        rcases List.mem_cons.mp hyl₁ with hk | hy
        · rw [hk]
          exact le_of_eq (h.refl x)
        · exact (List.pairwise_cons.mp hs₁).1 y hy
      have hyx : cmp y x ≤ 0 := by
        rcases List.mem_cons.mp hxl₂ with hk | hx2
        · rw [hk]
          exact le_of_eq (h.refl y)
        · exact (List.pairwise_cons.mp hs₂).1 x hx2
      have hxeqy : x = y :=
        hanti x (List.mem_cons_self x t₁) y hyl₁
          (by have := h.antisymm x y; omega)
      subst hxeqy
      have hp' : List.Perm t₁ t₂ := hp.cons_inv
      rw [ih hp' (List.pairwise_cons.mp hs₁).2 (List.pairwise_cons.mp hs₂).2
        (fun a ha b hb =>
          hanti a (List.mem_cons_of_mem x ha) b (List.mem_cons_of_mem x hb))]

theorem iSortP_iSortP {γ : Type} {c d : γ → γ → Int} (hc : IsCmp c)
    (hd : IsCmp d) (m : List γ) :
    iSortP c (iSortP d m) = iSortP (lexC c d) m := by
  have hQtCmp : IsCmp (lexC (fun a b : γ × Nat => d a.1 b.1)
      (fun a b : γ × Nat => intCmp a.2 b.2)) :=
    isCmp_lexC (isCmp_pullback Prod.fst hd) isCmp_intCmp_pair
  have step1 : List.map Prod.fst
      (iSortP (lexC (fun a b : γ × Nat => d a.1 b.1)
        (fun a b : γ × Nat => intCmp a.2 b.2)) (tagFrom 0 m)) = iSortP d m := by
    have := iSortP_map_fst (fun a b : γ × Nat => d a.1 b.1)
      (fun a b : γ × Nat => intCmp a.2 b.2) Prod.fst d (fun a b => rfl)
      (tagFrom 0 m) (tagFrom_pairwise 0 m)
    rwa [tagFrom_map_fst] at this
  set At := iSortP (lexC (fun a b : γ × Nat => d a.1 b.1)
    (fun a b : γ × Nat => intCmp a.2 b.2)) (tagFrom 0 m) with hAtDef
  have hperm : List.Perm At (tagFrom 0 m) := iSortP_perm _ _
  have htags : List.Pairwise (fun a b : γ × Nat => a.2 ≠ b.2) At := by
    refine (hperm.pairwise_iff (fun hab => Ne.symm hab)).mpr ?_
    refine (tagFrom_pairwise 0 m).imp ?_
    intro a b hab hne
    rw [intCmp_eq_zero.mpr hne] at hab
    omega
  have hstrict : List.Pairwise (fun a b : γ × Nat =>
      lexC (fun a b : γ × Nat => d a.1 b.1)
        (fun a b : γ × Nat => intCmp a.2 b.2) a b < 0) At := by
    refine ((iSortP_sorted hQtCmp (tagFrom 0 m)).and htags).imp ?_
    intro a b hab
    rcases hab with ⟨hle, hne⟩
    rcases lt_or_eq_of_le hle with hlt | heq
    · exact hlt
    · rcases lexC_eq_zero.mp heq with ⟨_, h2⟩
      exact absurd (intCmp_eq_zero.mp h2) hne
  have step2 : iSortP c (iSortP d m) = List.map Prod.fst
      (iSortP (lexC (fun a b : γ × Nat => c a.1 b.1)
        (lexC (fun a b : γ × Nat => d a.1 b.1)
          (fun a b : γ × Nat => intCmp a.2 b.2))) At) := by
    have := iSortP_map_fst (fun a b : γ × Nat => c a.1 b.1)
      (lexC (fun a b : γ × Nat => d a.1 b.1)
        (fun a b : γ × Nat => intCmp a.2 b.2)) Prod.fst c (fun a b => rfl)
      At hstrict
    rw [this, step1]
  have hP : lexC (fun a b : γ × Nat => c a.1 b.1)
      (lexC (fun a b : γ × Nat => d a.1 b.1)
        (fun a b : γ × Nat => intCmp a.2 b.2))
      = lexC (fun a b : γ × Nat => lexC c d a.1 b.1)
        (fun a b : γ × Nat => intCmp a.2 b.2) := by
    funext a b
    simp only [lexC]
    by_cases h1 : c a.1 b.1 = 0 <;> by_cases h2 : d a.1 b.1 = 0 <;>
      simp [h1, h2]
  have hPCmp : IsCmp (lexC (fun a b : γ × Nat => lexC c d a.1 b.1)
      (fun a b : γ × Nat => intCmp a.2 b.2)) :=
    isCmp_lexC (isCmp_pullback Prod.fst (isCmp_lexC hc hd)) isCmp_intCmp_pair
  have step3 : List.map Prod.fst
      (iSortP (lexC (fun a b : γ × Nat => lexC c d a.1 b.1)
        (fun a b : γ × Nat => intCmp a.2 b.2)) (tagFrom 0 m))
      = iSortP (lexC c d) m := by
    have := iSortP_map_fst (fun a b : γ × Nat => lexC c d a.1 b.1)
      (fun a b : γ × Nat => intCmp a.2 b.2) Prod.fst (lexC c d)
      (fun a b => rfl) (tagFrom 0 m) (tagFrom_pairwise 0 m)
    rwa [tagFrom_map_fst] at this
  have hsame : iSortP (lexC (fun a b : γ × Nat => lexC c d a.1 b.1)
        (fun a b : γ × Nat => intCmp a.2 b.2)) At
      = iSortP (lexC (fun a b : γ × Nat => lexC c d a.1 b.1)
        (fun a b : γ × Nat => intCmp a.2 b.2)) (tagFrom 0 m) := by
    refine sorted_perm_unique hPCmp
      (((iSortP_perm _ At).trans hperm).trans (iSortP_perm _ (tagFrom 0 m)).symm)
      (iSortP_sorted hPCmp At) (iSortP_sorted hPCmp (tagFrom 0 m)) ?_
    intro a ha b hb h0
    have ha2 : a ∈ tagFrom 0 m := hperm.mem_iff.mp (mem_iSortP.mp ha)
    have hb2 : b ∈ tagFrom 0 m := hperm.mem_iff.mp (mem_iSortP.mp hb)
    rcases lexC_eq_zero.mp h0 with ⟨_, h2⟩
    exact tagFrom_snd_inj ha2 hb2 (intCmp_eq_zero.mp h2)
  rw [step2, hP, hsame, step3]

theorem pairwise_of_forall {γ : Type} {R : γ → γ → Prop} (h : ∀ a b, R a b) :
    ∀ l : List γ, List.Pairwise R l
  | [] => List.Pairwise.nil
  | x :: xs => List.pairwise_cons.mpr ⟨fun b _ => h x b, pairwise_of_forall h xs⟩

theorem multiPassP_eq_iSortP_lexCmp {α : Type} [LinearOrder α] :
    ∀ (sorters : List Sorter) (l : List (Batch α)),
      multiPassP sorters l = iSortP (lexCmp sorters) l
  | [], l => by
    simp only [multiPassP, lexCmp]
    exact (iSortP_of_sorted (pairwise_of_forall
      (fun a b => by simp [zeroC]) l)).symm
  | s :: rest, l => by
    simp only [multiPassP, lexCmp]
    rw [multiPassP_eq_iSortP_lexCmp rest l]
    exact iSortP_iSortP (isCmp_passCmp s) (isCmp_lexCmp rest) l

theorem multiPassP_perm {α : Type} [LinearOrder α] (sorters : List Sorter)
    (l : List (Batch α)) : List.Perm (multiPassP sorters l) l := by
  rw [multiPassP_eq_iSortP_lexCmp]
  exact iSortP_perm _ l

theorem multiPassP_sorted {α : Type} [LinearOrder α] (sorters : List Sorter)
    (l : List (Batch α)) :
    List.Pairwise (fun a b => lexCmp sorters a b ≤ 0) (multiPassP sorters l) := by
  rw [multiPassP_eq_iSortP_lexCmp]
  exact iSortP_sorted (isCmp_lexCmp sorters) l

theorem multiPassP_idem {α : Type} [LinearOrder α] (sorters : List Sorter)
    (l : List (Batch α)) :
    multiPassP sorters (multiPassP sorters l) = multiPassP sorters l := by
  rw [multiPassP_eq_iSortP_lexCmp sorters (multiPassP sorters l)]
  exact iSortP_of_sorted (multiPassP_sorted sorters l)

/-! ## Bridging the monadic sort to its pure counterpart -/

theorem _compare_function_ok {α : Type} [LinearOrder α] {key : String}
    {a b : Batch α} (ha : Batch.hasKey a key = true)
    (hb : Batch.hasKey b key = true) :
    _compare_function key a b = .ok (cmpVal (mvalD a key) (mvalD b key)) := by
  rcases Option.isSome_iff_exists.mp (by simpa [Batch.hasKey] using ha)
    with ⟨va, hva⟩
  rcases Option.isSome_iff_exists.mp (by simpa [Batch.hasKey] using hb)
    with ⟨vb, hvb⟩
  have hma : a.metaGet key = .ok va := by simp [Batch.metaGet, hva]
  have hmb : b.metaGet key = .ok vb := by simp [Batch.metaGet, hvb]
  have hmva : mvalD a key = va := by simp [mvalD, hva]
  have hmvb : mvalD b key = vb := by simp [mvalD, hvb]
  simp only [_compare_function, hma, hmb, hmva, hmvb, Bind.bind, Except.bind]
  cases va <;> cases vb <;>
    simp [cmpVal, optLt, Pure.pure, Except.pure]
  rename_i x y
  rcases lt_trichotomy x y with h | h | h
  · simp [h, lt_asymm h]
  · simp [h, lt_irrefl]
  · simp [h, lt_asymm h]

theorem _compare_function_err {α : Type} [LinearOrder α] {key : String}
    {a b : Batch α}
    (h : metaLookup a.metadata key = none ∨ metaLookup b.metadata key = none) :
    _compare_function key a b = .error (.keyError key) := by
  rcases h with h | h
  · have hma : a.metaGet key = .error (.keyError key) := by
      simp [Batch.metaGet, h]
    simp [_compare_function, hma, Bind.bind, Except.bind]
  · cases hlook : metaLookup a.metadata key with
    | none =>
      have hma : a.metaGet key = .error (.keyError key) := by
        simp [Batch.metaGet, hlook]
      simp [_compare_function, hma, Bind.bind, Except.bind]
    | some va =>
      have hma : a.metaGet key = .ok va := by simp [Batch.metaGet, hlook]
      have hmb : b.metaGet key = .error (.keyError key) := by
        simp [Batch.metaGet, h]
      simp [_compare_function, hma, hmb, Bind.bind, Except.bind]

theorem passCmpE_ok {α : Type} [LinearOrder α] {s : Sorter} {a b : Batch α}
    (ha : Batch.hasKey a s.key = true) (hb : Batch.hasKey b s.key = true) :
    passCmpE s a b = .ok (passCmp s a b) := by
  simp [passCmpE, _sort_batches_with_none_metadata_values,
    _compare_function_ok ha hb, passCmp, Except.map]

theorem passCmpE_err {α : Type} [LinearOrder α] {s : Sorter} {a b : Batch α}
    (h : metaLookup a.metadata s.key = none ∨
      metaLookup b.metadata s.key = none) :
    passCmpE s a b = .error (.keyError s.key) := by
  simp [passCmpE, _sort_batches_with_none_metadata_values,
    _compare_function_err h, Except.map]

theorem orderedInsertE_ok {α : Type} [LinearOrder α] {s : Sorter}
    {x : Batch α} (hx : Batch.hasKey x s.key = true) :
    ∀ {t : List (Batch α)}, (∀ y ∈ t, Batch.hasKey y s.key = true) →
      orderedInsertE (passCmpE s) x t = .ok (oInsertP (passCmp s) x t) := by
  intro t
  induction t with
  | nil => intro _; rfl
  | cons y ys ih =>
    intro ht
    have hy := ht y (List.mem_cons_self y ys)
    simp only [orderedInsertE, oInsertP, passCmpE_ok hx hy, Bind.bind,
      Except.bind]
    split_ifs with h
    · rfl
    · simp only [ih (fun z hz => ht z (List.mem_cons_of_mem y hz)),
        Pure.pure, Except.pure]

theorem insertionSortE_ok {α : Type} [LinearOrder α] {s : Sorter} :
    ∀ {m : List (Batch α)}, (∀ b ∈ m, Batch.hasKey b s.key = true) →
      insertionSortE (passCmpE s) m = .ok (iSortP (passCmp s) m) := by
  intro m
  induction m with
  | nil => intro _; rfl
  | cons x xs ih =>
    intro hm
    simp only [insertionSortE, iSortP,
      ih (fun b hb => hm b (List.mem_cons_of_mem x hb)), Bind.bind,
      Except.bind]
    exact orderedInsertE_ok (hm x (List.mem_cons_self x xs))
      (fun y hy => hm y (List.mem_cons_of_mem x (mem_iSortP.mp hy)))

theorem insertionSortE_cons {γ : Type} (cmp : γ → γ → Except GxError Int)
    (x : γ) (xs : List γ) :
    insertionSortE cmp (x :: xs) =
      Bind.bind (insertionSortE cmp xs) (orderedInsertE cmp x) := rfl

theorem orderedInsertE_cons {γ : Type} (cmp : γ → γ → Except GxError Int)
    (x y : γ) (ys : List γ) :
    orderedInsertE cmp x (y :: ys) =
      Bind.bind (cmp x y) (fun c =>
        if c ≤ 0 then pure (x :: y :: ys)
        else Bind.bind (orderedInsertE cmp x ys) (fun zs => pure (y :: zs))) :=
  rfl

theorem insertionSortE_err {α : Type} [LinearOrder α] {s : Sorter} :
    ∀ {m : List (Batch α)}, 2 ≤ m.length →
      (∃ b ∈ m, metaLookup b.metadata s.key = none) →
      insertionSortE (passCmpE s) m = .error (.keyError s.key) := by
  intro m
  induction m with
  | nil => intro h _; simp at h
  | cons x xs ih =>
    intro hlen hex
    by_cases hxs : ∃ b ∈ xs, metaLookup b.metadata s.key = none
    · by_cases hlen2 : 2 ≤ xs.length
      · rw [insertionSortE_cons, ih hlen2 hxs]
        rfl
      · cases xs with
        | nil =>
          rcases hxs with ⟨b, hb, _⟩
          simp at hb
        | cons y ys =>
          cases ys with
          | cons z zs =>
            exfalso
            apply hlen2
            simp
          | nil =>
            rcases hxs with ⟨b, hb, hbmiss⟩
            have hby : b = y := by simpa using hb
            subst hby
            have hinner : insertionSortE (passCmpE s) [b] = .ok [b] := rfl
            rw [insertionSortE_cons, hinner]
            show orderedInsertE (passCmpE s) x [b] = _
            rw [orderedInsertE_cons, passCmpE_err (Or.inr hbmiss)]
            rfl
    · have hxmiss : metaLookup x.metadata s.key = none := by
        rcases hex with ⟨b, hb, hbmiss⟩
        rcases List.mem_cons.mp hb with rfl | hbx
        · exact hbmiss
        · exact absurd ⟨b, hbx, hbmiss⟩ hxs
      have hall : ∀ b ∈ xs, Batch.hasKey b s.key = true := by
        intro b hb
        by_contra hbk
        refine hxs ⟨b, hb, ?_⟩
        exact Option.not_isSome_iff_eq_none.mp
          (by simpa [Batch.hasKey] using hbk)
      cases xs with
      | nil => simp at hlen
      | cons y ys =>
        have hinner := insertionSortE_ok (s := s) hall
        have hlen' : (iSortP (passCmp s) (y :: ys)).length = (y :: ys).length :=
          (iSortP_perm _ _).length_eq
        cases hsorted : iSortP (passCmp s) (y :: ys) with
        | nil =>
          rw [hsorted] at hlen'
          simp at hlen'
        | cons z zs =>
          rw [insertionSortE_cons, hinner, hsorted]
          show orderedInsertE (passCmpE s) x (z :: zs) = _
          rw [orderedInsertE_cons, passCmpE_err (Or.inl hxmiss)]
          rfl

/-- One sort pass succeeds exactly when the list has at most one element
(CPython then never invokes the comparator) or every batch has the sorter's
key (its value may be null). -/
def passOk {α : Type} [LinearOrder α] (s : Sorter) (m : List (Batch α)) :
    Prop :=
  m.length ≤ 1 ∨ ∀ b ∈ m, Batch.hasKey b s.key = true

/-- Every pass of a `sort_batches` run succeeds on its intermediate list. -/
def sortOk {α : Type} [LinearOrder α] :
    List Sorter → List (Batch α) → Prop
  | [], _ => True
  | s :: rest, l => sortOk rest l ∧ passOk s (multiPassP rest l)

theorem insertionSortE_of_passOk {α : Type} [LinearOrder α] {s : Sorter}
    {m : List (Batch α)} (h : passOk s m) :
    insertionSortE (passCmpE s) m = .ok (iSortP (passCmp s) m) := by
  rcases h with h | h
  · cases m with
    | nil => rfl
    | cons x xs =>
      cases xs with
      | nil => rfl
      | cons y ys => simp at h
  · exact insertionSortE_ok h

theorem passOk_of_insertionSortE_ok {α : Type} [LinearOrder α] {s : Sorter}
    {m r : List (Batch α)} (h : insertionSortE (passCmpE s) m = .ok r) :
    passOk s m := by
  by_contra hno
  rw [passOk] at hno
  push_neg at hno
  rcases hno with ⟨h1, b, hb, hbk⟩
  have hmiss : metaLookup b.metadata s.key = none :=
    Option.not_isSome_iff_eq_none.mp (by simpa [Batch.hasKey] using hbk)
  rw [insertionSortE_err (by omega) ⟨b, hb, hmiss⟩] at h
  exact Except.noConfusion h

theorem sortBatchesPass_ok_iff {α : Type} [LinearOrder α] {a : String}
    {s : Sorter} {m r : List (Batch α)} :
    sortBatchesPass a s m = .ok r ↔ insertionSortE (passCmpE s) m = .ok r := by
  unfold sortBatchesPass
  cases h : insertionSortE (passCmpE s) m with
  | ok r' => simp
  | error e => cases e <;> simp

theorem sort_batches_ok_iff {α : Type} [LinearOrder α] (a : String) :
    ∀ (ob : List Sorter) (l r : List (Batch α)),
      DataAsset.sort_batches a ob l = .ok r ↔
        (sortOk ob l ∧ r = multiPassP ob l)
  | [], l, r => by
    constructor
    · intro h
      rw [show DataAsset.sort_batches a ([] : List Sorter) l = Except.ok l
        from rfl] at h
      injection h with h
      exact ⟨trivial, h.symm⟩
    · rintro ⟨_, rfl⟩
      rfl
  | s :: rest, l, r => by
    have hstep : DataAsset.sort_batches a (s :: rest) l =
        Bind.bind (DataAsset.sort_batches a rest l) (sortBatchesPass a s) :=
      rfl
    rw [hstep]
    cases hrest : DataAsset.sort_batches a rest l with
    | error e =>
      simp only [Bind.bind, Except.bind]
      constructor
      · intro h
        exact Except.noConfusion h
      · rintro ⟨⟨h1, h2⟩, hr⟩
        have hcontra :=
          (sort_batches_ok_iff a rest l (multiPassP rest l)).mpr ⟨h1, rfl⟩
        rw [hrest] at hcontra
        exact Except.noConfusion hcontra
    | ok m =>
      simp only [Bind.bind, Except.bind]
      rcases (sort_batches_ok_iff a rest l m).mp hrest with ⟨h1, rfl⟩
      constructor
      · intro h
        have hok := sortBatchesPass_ok_iff.mp h
        have hpo := passOk_of_insertionSortE_ok hok
        refine ⟨⟨h1, hpo⟩, ?_⟩
        rw [insertionSortE_of_passOk hpo] at hok
        injection hok with h2
        rw [← h2]
        rfl
      · rintro ⟨⟨h1', hpo⟩, rfl⟩
        apply sortBatchesPass_ok_iff.mpr
        rw [insertionSortE_of_passOk hpo]
        rfl

theorem passOk_perm {α : Type} [LinearOrder α] {s : Sorter}
    {m m' : List (Batch α)} (hp : List.Perm m m') (h : passOk s m) :
    passOk s m' := by
  rcases h with h | h
  · exact Or.inl (by rw [← hp.length_eq]; exact h)
  · exact Or.inr (fun b hb => h b (hp.mem_iff.mpr hb))

theorem sortOk_perm {α : Type} [LinearOrder α] :
    ∀ {ob : List Sorter} {l l' : List (Batch α)},
      List.Perm l l' → sortOk ob l → sortOk ob l'
  | [], _, _, _, _ => trivial
  | s :: rest, l, l', hp, h => by
    rcases h with ⟨h1, h2⟩
    refine ⟨sortOk_perm hp h1, passOk_perm ?_ h2⟩
    exact ((multiPassP_perm rest l).trans hp).trans
      (multiPassP_perm rest l').symm

theorem sortOk_of_allPresent {α : Type} [LinearOrder α] :
    ∀ {ob : List Sorter} {l : List (Batch α)},
      (∀ s ∈ ob, ∀ b ∈ l, Batch.hasKey b s.key = true) → sortOk ob l
  | [], _, _ => trivial
  | s :: rest, l, h => by
    refine ⟨sortOk_of_allPresent
      (fun s' hs' => h s' (List.mem_cons_of_mem s hs')), Or.inr ?_⟩
    intro b hb
    exact h s (List.mem_cons_self s rest) b
      ((multiPassP_perm rest l).mem_iff.mp hb)

/-! ## Auxiliary instances and string facts -/

instance {ε β : Type} [DecidableEq ε] [DecidableEq β] :
    DecidableEq (Except ε β) := fun x y =>
  match x, y with
  | .ok a, .ok b =>
    if h : a = b then .isTrue (by rw [h])
    else .isFalse (fun hc => h (Except.ok.inj hc))
  | .ok _, .error _ => .isFalse (fun hc => Except.noConfusion hc)
  | .error _, .ok _ => .isFalse (fun hc => Except.noConfusion hc)
  | .error a, .error b =>
    if h : a = b then .isTrue (by rw [h])
    else .isFalse (fun hc => h (Except.error.inj hc))

theorem string_mk_data (s : String) : String.mk s.data = s := by
  cases s
  rfl

theorem string_ne_empty_data {s : String} (h : s ≠ "") :
    ∃ c cs, s.data = c :: cs := by
  cases hd : s.data with
  | nil => exact absurd (String.ext (by simpa using hd)) h
  | cons c cs => exact ⟨c, cs, rfl⟩

theorem setIdOptionsList_eq (opts : List (String × String)) :
    setIdOptionsList opts =
      (opts.filter (fun kv => kv.1 ≠ "path")).map
        (fun kv => kv.1 ++ "_" ++ kv.2) := by
  induction opts with
  | nil => rfl
  | cons kv rest ih =>
    rcases kv with ⟨k, v⟩
    by_cases h : k = "path"
    · simp [setIdOptionsList, h, ih]
    · simp [setIdOptionsList, h, ih]

/-- C3: a batch's id is the datasource name, the asset name, and one
component `key_value` per non-`"path"` option in iteration order, joined by
`-`; with no qualifying options it is exactly `source-asset`, and two option
mappings agreeing outside `"path"` give equal ids. -/
theorem C3_batch_id (ds asset : String) (opts opts2 : List (String × String))
    (hpath : opts.filter (fun kv => kv.1 ≠ "path") =
      opts2.filter (fun kv => kv.1 ≠ "path")) :
    Batch._set_id ds asset opts =
        strJoin "-" (ds :: asset ::
          (opts.filter (fun kv => kv.1 ≠ "path")).map
            (fun kv => kv.1 ++ "_" ++ kv.2))
      ∧ (opts.filter (fun kv => kv.1 ≠ "path") = [] →
          Batch._set_id ds asset opts = ds ++ "-" ++ asset)
      ∧ Batch._set_id ds asset opts = Batch._set_id ds asset opts2 := by
  refine ⟨?_, ?_, ?_⟩
  · simp [Batch._set_id, setIdOptionsList_eq]
  · intro h0
    simp only [ne_eq, decide_not] at h0
    simp [Batch._set_id, setIdOptionsList_eq, h0, strJoin]
  · simp only [ne_eq, decide_not] at hpath
    simp [Batch._set_id, setIdOptionsList_eq, hpath]

/-- Witness for C3 at the spec's example: the `path` option is excluded, the
id is `ds-asset-year_2020`, and the empty options give `ds-asset`. -/
theorem C3_batch_id_witness :
    Batch._set_id "ds" "asset" [("year", "2020"), ("path", "/x")] =
        Batch._set_id "ds" "asset" [("year", "2020")]
      ∧ Batch._set_id "ds" "asset" [("year", "2020"), ("path", "/x")] =
        "ds-asset-year_2020"
      ∧ Batch._set_id "ds" "asset" [] = "ds-asset" :=
  ⟨(C3_batch_id "ds" "asset" [("year", "2020"), ("path", "/x")]
      [("year", "2020")] (by decide)).2.2, by decide, by decide⟩

/-- C9: on any two batches whose metadata contains the key, the comparison
function returns `-1`, `0` or `1`; in particular the final
`raise ValueError` branch is unreachable. -/
theorem C9_comparator_total {α : Type} [LinearOrder α] (key : String)
    (a b : Batch α) (ha : Batch.hasKey a key = true)
    (hb : Batch.hasKey b key = true) :
    ∃ c : Int, _compare_function key a b = .ok c ∧
      (c = -1 ∨ c = 0 ∨ c = 1) := by
  refine ⟨cmpVal (mvalD a key) (mvalD b key), _compare_function_ok ha hb, ?_⟩
  cases mvalD a key <;> cases mvalD b key <;> simp only [cmpVal]
  · simp
  · simp
  · simp
  · split_ifs <;> simp

/-- Witness for C9 on two concrete batches. -/
theorem C9_comparator_total_witness :
    ∃ c : Int, _compare_function "k" (Batch.mk [("k", some (1 : Int))])
      (Batch.mk [("k", (none : Option Int))]) = .ok c ∧
        (c = -1 ∨ c = 0 ∨ c = 1) :=
  C9_comparator_total "k" _ _ (by decide) (by decide)

/-- C10: the bare sign strings parse without error to a sorter with an empty
key (`"-"` gives reverse, `"+"` does not); only the fully empty string is
rejected, every other string parses to some sorter. -/
theorem C10_sign_only_strings :
    Datasource.parse_order_by_sorters (some [SElem.str "-"]) =
        .ok [{ key := "", reverse := true }]
      ∧ Datasource.parse_order_by_sorters (some [SElem.str "+"]) =
        .ok [{ key := "", reverse := false }]
      ∧ Datasource.parse_order_by_sorters (some [SElem.str ""]) =
        .error (.valueError "\"order_by\" list cannot contain an empty string")
      ∧ ∀ s : String, s ≠ "" →
          ∃ srt, parse_order_by_elem (SElem.str s) = .ok srt := by
  refine ⟨by decide, by decide, by decide, ?_⟩
  intro s hs
  rcases string_ne_empty_data hs with ⟨c, cs, hd⟩
  simp only [parse_order_by_elem, if_neg hs, _sorter_from_str, hd]
  split_ifs <;> exact ⟨_, rfl⟩

/-- Witness for the universally quantified part of C10. -/
theorem C10_sign_only_strings_witness :
    ∃ srt, parse_order_by_elem (SElem.str "x") = .ok srt :=
  C10_sign_only_strings.2.2.2 "x" (by decide)

/-- C7: a dict shorthand is rejected with the `key`-naming error exactly when
it lacks a truthy `"key"` entry; otherwise it parses to a sorter with that
key and with `reverse` taken from the dict, defaulting to false. -/
theorem C7_dict_shorthand (k : Option String) (r : Option Bool) :
    (parse_order_by_elem (SElem.dict k r) =
        .error (.valueError "\"order_by\" list dict must have a key named \"key\"")
      ↔ k.getD "" = "")
    ∧ (∀ kk, k = some kk → kk ≠ "" →
        parse_order_by_elem (SElem.dict k r) =
          .ok { key := kk, reverse := r.getD false }) := by
  constructor
  · by_cases hk : k.getD "" = ""
    · simp only [parse_order_by_elem]
      rw [if_neg (by simp [hk]), if_neg (by simp [hk])]
      simp [hk]
    · simp only [parse_order_by_elem]
      by_cases hr : r.getD false = true
      · rw [if_pos ⟨hk, hr⟩]
        simp [hk]
      · rw [if_neg (by simp [hr]), if_pos hk]
        simp [hk]
  · intro kk hkk hne
    subst hkk
    simp only [parse_order_by_elem, Option.getD_some]
    cases r with
    | none => rw [if_neg (by simp), if_pos hne]; rfl
    | some b =>
      cases b with
      | false => rw [if_neg (by simp), if_pos hne]; rfl
      | true => rw [if_pos ⟨hne, rfl⟩]

/-- Witness for C7: a dict with a key and an explicit reverse parses to that
sorter. -/
theorem C7_dict_shorthand_witness :
    parse_order_by_elem (SElem.dict (some "a") (some true)) =
      .ok { key := "a", reverse := true } :=
  (C7_dict_shorthand (some "a") (some true)).2 "a" rfl (by decide)

theorem _sorter_from_str_dash (k : String) :
    _sorter_from_str ("-" ++ k) = .ok { key := k, reverse := true } := by
  have hd : ("-" ++ k).data = '-' :: k.data := by
    rw [String.data_append]
    rfl
  simp only [_sorter_from_str, hd]
  simp [string_mk_data]

theorem _sorter_from_str_plus (k : String) :
    _sorter_from_str ("+" ++ k) = .ok { key := k, reverse := false } := by
  have hd : ("+" ++ k).data = '+' :: k.data := by
    rw [String.data_append]
    rfl
  simp only [_sorter_from_str, hd]
  simp [string_mk_data]

theorem sign_str_ne_empty (c : Char) (pre k : String)
    (hd : pre.data = [c]) : pre ++ k ≠ "" := by
  intro h
  have := congrArg String.data h
  rw [String.data_append, hd] at this
  simp at this

/-- C6: in the `order_by` parser a string `-key` yields that key reversed,
`+key` yields it forward, a bare key not starting with a sign yields it
forward, input order is preserved (spec example), and the empty string is
rejected with the `InvalidSorterError`-class message. -/
theorem C6_string_shorthand (k : String) :
    parse_order_by_elem (SElem.str ("-" ++ k)) =
        .ok { key := k, reverse := true }
      ∧ parse_order_by_elem (SElem.str ("+" ++ k)) =
        .ok { key := k, reverse := false }
      ∧ (∀ c cs, k.data = c :: cs → c ≠ '-' → c ≠ '+' →
          parse_order_by_elem (SElem.str k) = .ok { key := k, reverse := false })
      ∧ Datasource.parse_order_by_sorters
          (some [SElem.str "key1", SElem.str "-key2", SElem.str "+key3"]) =
        .ok [{ key := "key1", reverse := false },
          { key := "key2", reverse := true },
          { key := "key3", reverse := false }]
      ∧ parse_order_by_elem (SElem.str "") =
        .error (.valueError "\"order_by\" list cannot contain an empty string") := by
  refine ⟨?_, ?_, ?_, by decide, by decide⟩
  · simp only [parse_order_by_elem, if_neg (sign_str_ne_empty '-' "-" k rfl)]
    exact _sorter_from_str_dash k
  · simp only [parse_order_by_elem, if_neg (sign_str_ne_empty '+' "+" k rfl)]
    exact _sorter_from_str_plus k
  · intro c cs hd hcm hcp
    have hne : k ≠ "" := by
      intro h
      rw [h] at hd
      simp at hd
    simp only [parse_order_by_elem, if_neg hne, _sorter_from_str, hd]
    rw [if_neg hcm, if_neg hcp]

/-- Witness for C6 at a concrete key. -/
theorem C6_string_shorthand_witness :
    parse_order_by_elem (SElem.str "key") = .ok { key := "key", reverse := false } :=
  (C6_string_shorthand "key").2.2.1 'k' "ey".data rfl (by decide) (by decide)

theorem parse_loop_sorters :
    ∀ ss : List Sorter, parse_order_by_loop (ss.map SElem.sorter) = .ok ss
  | [] => rfl
  | s :: rest => by
    simp only [List.map_cons, parse_order_by_loop, parse_order_by_elem,
      parse_loop_sorters rest, Bind.bind, Except.bind, Pure.pure, Except.pure]

theorem str_map_eq_loop :
    ∀ strs : List String, (∀ s ∈ strs, s ≠ "") →
      _sorter_from_str_map (strs.map SElem.str) =
        parse_order_by_loop (strs.map SElem.str)
  | [], _ => rfl
  | s :: rest, h => by
    have hs := h s (List.mem_cons_self s rest)
    simp only [List.map_cons, _sorter_from_str_map, parse_order_by_loop,
      _sorter_from_str_any, parse_order_by_elem, if_neg hs,
      str_map_eq_loop rest (fun x hx => h x (List.mem_cons_of_mem s hx))]

/-- C4 counterexample: on a dict-headed list `_sorter_from_list` raises the
generic `ValueError` while `parse_order_by_sorters` succeeds, so the two are
not equivalent on every well-shaped list. -/
theorem C4_counterexample :
    _sorter_from_list [SElem.dict (some "a") none] ≠
      (Datasource.parse_order_by_sorters
        (some [SElem.dict (some "a") none])).map (List.map SElem.sorter) := by
  decide

/-- C4 amended: the fast paths agree with element-wise parsing on exactly the
shapes they handle — a homogeneous list of Sorters (returned unchanged, and
element-wise parsing returns the same sorters), and a homogeneous list of
nonempty strings. -/
theorem C4_fast_path_equivalence :
    (∀ ss : List Sorter,
        _sorter_from_list (ss.map SElem.sorter) = .ok (ss.map SElem.sorter)
        ∧ Datasource.parse_order_by_sorters (some (ss.map SElem.sorter)) =
          .ok ss)
    ∧ ∀ strs : List String, (∀ s ∈ strs, s ≠ "") →
        _sorter_from_list (strs.map SElem.str) =
          (Datasource.parse_order_by_sorters
            (some (strs.map SElem.str))).map (List.map SElem.sorter) := by
  constructor
  · intro ss
    constructor
    · cases ss with
      | nil => rfl
      | cons s rest => rfl
    · exact parse_loop_sorters ss
  · intro strs h
    cases strs with
    | nil => rfl
    | cons s rest =>
      have h1 : _is_sorter_list ((s :: rest).map SElem.str) = false := rfl
      have h2 : _is_str_sorter_list ((s :: rest).map SElem.str) = true := rfl
      simp only [_sorter_from_list, h1, h2, Bool.false_eq_true, if_false,
        if_true, Datasource.parse_order_by_sorters]
      rw [str_map_eq_loop (s :: rest) h]

/-- Witness for the string fast path of the amended C4. -/
theorem C4_fast_path_equivalence_witness :
    _sorter_from_list ((["a", "-b"]).map SElem.str) =
      (Datasource.parse_order_by_sorters
        (some ((["a", "-b"]).map SElem.str))).map (List.map SElem.sorter) :=
  C4_fast_path_equivalence.2 ["a", "-b"] (by decide)

/-- C5 counterexample: a sort over exactly one batch lacking the sort key
makes no comparisons, so no error is raised — the claim fails for
single-element lists. -/
theorem C5_counterexample :
    DataAsset.sort_batches "asset" [{ key := "z", reverse := false }]
        [Batch.mk [("k", some (1 : Int))]] =
      .ok [Batch.mk [("k", some (1 : Int))]]
    ∧ metaLookup (Batch.mk [("k", some (1 : Int))]).metadata "z" = none := by
  exact ⟨rfl, rfl⟩

/-- C5 amended: over at least two batches, a sorter key absent from some
batch's metadata makes the whole sort fail with the re-raised `KeyError`
naming the owning asset and a missing sorter key, propagated to the caller. -/
theorem C5_missing_key_error {α : Type} [LinearOrder α] (asset : String) :
    ∀ (order_by : List Sorter) (l : List (Batch α)) (s₀ : Sorter)
      (b₀ : Batch α), 2 ≤ l.length → s₀ ∈ order_by → b₀ ∈ l →
      metaLookup b₀.metadata s₀.key = none →
      ∃ k, DataAsset.sort_batches asset order_by l =
          .error (.sortKeyNotFoundError asset k)
        ∧ (∃ s ∈ order_by, s.key = k)
        ∧ ∃ b ∈ l, metaLookup b.metadata k = none := by
  intro ob
  induction ob with
  | nil =>
    intro l s₀ b₀ _ hs
    simp at hs
  | cons s rest ih =>
    intro l s₀ b₀ hlen hs hb hmiss
    by_cases hrest : ∃ s' ∈ rest, ∃ b ∈ l, metaLookup b.metadata s'.key = none
    · rcases hrest with ⟨s', hs', b', hb', hmiss'⟩
      rcases ih l s' b' hlen hs' hb' hmiss' with ⟨k, hk, hks, hkb⟩
      refine ⟨k, ?_, ?_, hkb⟩
      · show Bind.bind (DataAsset.sort_batches asset rest l)
          (sortBatchesPass asset s) = _
        rw [hk]
        rfl
      · rcases hks with ⟨s'', hs'', hkeq⟩
        exact ⟨s'', List.mem_cons_of_mem s hs'', hkeq⟩
    · have hall : ∀ s' ∈ rest, ∀ b ∈ l, Batch.hasKey b s'.key = true := by
        intro s' hs' b hb'
        by_contra hk
        exact hrest ⟨s', hs', b, hb',
          Option.not_isSome_iff_eq_none.mp (by simpa [Batch.hasKey] using hk)⟩
      have hs0 : s₀ = s := by
        rcases List.mem_cons.mp hs with h | h
        · exact h
        · exact absurd ⟨s₀, h, b₀, hb, hmiss⟩ hrest
      subst hs0
      have hrestok : DataAsset.sort_batches asset rest l =
          .ok (multiPassP rest l) :=
        (sort_batches_ok_iff asset rest l _).mpr
          ⟨sortOk_of_allPresent hall, rfl⟩
      refine ⟨s₀.key, ?_, ⟨s₀, List.mem_cons_self s₀ rest, rfl⟩,
        ⟨b₀, hb, hmiss⟩⟩
      show Bind.bind (DataAsset.sort_batches asset rest l)
        (sortBatchesPass asset s₀) = _
      rw [hrestok]
      show sortBatchesPass asset s₀ (multiPassP rest l) = _
      have hlen2 : 2 ≤ (multiPassP rest l).length := by
        rw [(multiPassP_perm rest l).length_eq]
        exact hlen
      have hb0 : b₀ ∈ multiPassP rest l :=
        (multiPassP_perm rest l).mem_iff.mpr hb
      have herr := insertionSortE_err (s := s₀) hlen2 ⟨b₀, hb0, hmiss⟩
      unfold sortBatchesPass
      rw [herr]

/-- Witness for the amended C5 on two concrete batches. -/
theorem C5_missing_key_error_witness :
    ∃ k, DataAsset.sort_batches "asset" [{ key := "z", reverse := false }]
        [Batch.mk [("k", some (1 : Int))], Batch.mk [("k", some (2 : Int))]] =
        .error (.sortKeyNotFoundError "asset" k)
      ∧ (∃ s ∈ [{ key := "z", reverse := false }], Sorter.key s = k)
      ∧ ∃ b ∈ [Batch.mk [("k", some (1 : Int))],
          Batch.mk [("k", some (2 : Int))]], metaLookup b.metadata k = none :=
  C5_missing_key_error "asset" [{ key := "z", reverse := false }]
    [Batch.mk [("k", some (1 : Int))], Batch.mk [("k", some (2 : Int))]]
    { key := "z", reverse := false } (Batch.mk [("k", some (1 : Int))])
    (by decide) (List.mem_cons_self _ _) (List.mem_cons_self _ _) (by decide)

/-- C1 counterexample: with `reverse=True` Python's descending sort inverts
the comparator's null-first policy, so the null-valued batch ends up last,
not first. -/
theorem C1_counterexample :
    DataAsset.sort_batches "asset" [{ key := "k", reverse := true }]
        [Batch.mk [("k", (none : Option Int))], Batch.mk [("k", some 5)]] =
      .ok [Batch.mk [("k", some 5)], Batch.mk [("k", (none : Option Int))]]
    ∧ Batch.mk [("k", (none : Option Int))] ≠ Batch.mk [("k", some 5)] := by
  exact ⟨by decide, by decide⟩

theorem lexCmp_single_le {α : Type} [LinearOrder α] {s : Sorter}
    {a b : Batch α} (h : lexCmp [s] a b ≤ 0) : passCmp s a b ≤ 0 := by
  simp only [lexCmp, lexC, zeroC] at h
  by_cases h0 : passCmp s a b = 0
  · exact le_of_eq h0
  · rwa [if_neg h0] at h

/-- C1 amended: when every batch has the key, sorting by a single forward
sorter puts every null-valued batch before every non-null one, while
`reverse=True` — which inverts the whole comparator, nulls included — puts
every null-valued batch after every non-null one. -/
theorem C1_null_placement {α : Type} [LinearOrder α] (asset k : String)
    (l : List (Batch α)) (hall : ∀ b ∈ l, Batch.hasKey b k = true) :
    (∃ r, DataAsset.sort_batches asset [{ key := k, reverse := false }] l =
        .ok r
      ∧ List.Pairwise (fun x y => mvalD x k ≠ none → mvalD y k ≠ none) r)
    ∧ (∃ r, DataAsset.sort_batches asset [{ key := k, reverse := true }] l =
        .ok r
      ∧ List.Pairwise (fun x y => mvalD x k = none → mvalD y k = none) r) := by
  constructor
  · refine ⟨multiPassP [{ key := k, reverse := false }] l, ?_, ?_⟩
    · refine (sort_batches_ok_iff asset _ l _).mpr
        ⟨sortOk_of_allPresent ?_, rfl⟩
      intro s hs b hb
      have heq : s = { key := k, reverse := false } := by simpa using hs
      rw [heq]
      exact hall b hb
    · refine (multiPassP_sorted [{ key := k, reverse := false }] l).imp ?_
      intro a b hab hxa
      have hle := lexCmp_single_le hab
      simp only [passCmp, Bool.false_eq_true, if_false] at hle
      cases hma : mvalD a k with
      | none => exact absurd hma hxa
      | some va =>
        cases hmb : mvalD b k with
        | some vb => simp
        | none =>
          rw [hma, hmb] at hle
          simp only [cmpVal] at hle
          omega
  · refine ⟨multiPassP [{ key := k, reverse := true }] l, ?_, ?_⟩
    · refine (sort_batches_ok_iff asset _ l _).mpr
        ⟨sortOk_of_allPresent ?_, rfl⟩
      intro s hs b hb
      have heq : s = { key := k, reverse := true } := by simpa using hs
      rw [heq]
      exact hall b hb
    · refine (multiPassP_sorted [{ key := k, reverse := true }] l).imp ?_
      intro a b hab hxa
      have hle := lexCmp_single_le hab
      simp only [passCmp, if_true] at hle
      cases hmb : mvalD b k with
      | none => rfl
      | some vb =>
        cases hma : mvalD a k with
        | some va => exact absurd hma (by rw [hxa]; intro hc; exact Option.noConfusion hc)
        | none =>
          rw [hma, hmb] at hle
          simp only [cmpVal] at hle
          omega

/-- Witness for the amended C1: the spec's two-batch null example, in both
directions. -/
theorem C1_null_placement_witness :
    (∃ r, DataAsset.sort_batches "asset" [{ key := "k", reverse := false }]
        [Batch.mk [("k", some (5 : Int))],
          Batch.mk [("k", (none : Option Int))]] = .ok r
      ∧ List.Pairwise (fun x y => mvalD x "k" ≠ none → mvalD y "k" ≠ none) r)
    ∧ (∃ r, DataAsset.sort_batches "asset" [{ key := "k", reverse := true }]
        [Batch.mk [("k", some (5 : Int))],
          Batch.mk [("k", (none : Option Int))]] = .ok r
      ∧ List.Pairwise (fun x y => mvalD x "k" = none → mvalD y "k" = none) r) :=
  C1_null_placement "asset" "k"
    [Batch.mk [("k", some (5 : Int))], Batch.mk [("k", (none : Option Int))]]
    (by decide)

/-- C2: with every sorter key present and non-null in every batch, the sort
succeeds and returns a permutation of the input that is sorted
lexicographically by the sorter sequence — the first sorter is the primary
key, later sorters break ties, and each sorter's `reverse` flag inverts its
own key's order. -/
theorem C2_lexicographic_order {α : Type} [LinearOrder α] (asset : String)
    (order_by : List Sorter) (l : List (Batch α))
    (hall : ∀ s ∈ order_by, ∀ b ∈ l, Batch.hasNonNull b s.key = true) :
    ∃ r, DataAsset.sort_batches asset order_by l = .ok r
      ∧ List.Perm l r
      ∧ List.Pairwise (fun a b => lexCmp order_by a b ≤ 0) r := by
  have hpresent : ∀ s ∈ order_by, ∀ b ∈ l, Batch.hasKey b s.key = true := by
    intro s hs b hb
    have h2 := hall s hs b hb
    simp only [Batch.hasNonNull] at h2
    simp only [Batch.hasKey]
    cases hm : metaLookup b.metadata s.key with
    | none =>
      rw [hm] at h2
      simp at h2
    | some v => simp [hm]
  exact ⟨multiPassP order_by l,
    (sort_batches_ok_iff asset order_by l _).mpr
      ⟨sortOk_of_allPresent hpresent, rfl⟩,
    (multiPassP_perm order_by l).symm,
    multiPassP_sorted order_by l⟩

/-- Witness for C2 at the spec's multi-key example. -/
theorem C2_lexicographic_order_witness :
    ∃ r, DataAsset.sort_batches "asset"
        [{ key := "a", reverse := false }, { key := "b", reverse := false }]
        [Batch.mk [("a", some (1 : Int)), ("b", some 2)],
          Batch.mk [("a", some 1), ("b", some 1)],
          Batch.mk [("a", some 0), ("b", some 9)]] = .ok r
      ∧ List.Perm [Batch.mk [("a", some (1 : Int)), ("b", some 2)],
          Batch.mk [("a", some 1), ("b", some 1)],
          Batch.mk [("a", some 0), ("b", some 9)]] r
      ∧ List.Pairwise (fun a b =>
          lexCmp [{ key := "a", reverse := false },
            { key := "b", reverse := false }] a b ≤ 0) r :=
  C2_lexicographic_order "asset" _ _ (by decide)

/-- C8: sorting is idempotent — a second `sort_batches` run with the same
sorters on the result of a successful run returns it unchanged. -/
theorem C8_sort_idempotent {α : Type} [LinearOrder α] (asset : String)
    (order_by : List Sorter) (l r : List (Batch α))
    (h : DataAsset.sort_batches asset order_by l = .ok r) :
    DataAsset.sort_batches asset order_by r = .ok r := by
  rcases (sort_batches_ok_iff asset order_by l r).mp h with ⟨h1, rfl⟩
  exact (sort_batches_ok_iff asset order_by _ _).mpr
    ⟨sortOk_perm (multiPassP_perm order_by l).symm h1,
      (multiPassP_idem order_by l).symm⟩

/-- Witness for C8 on a concrete sorted result. -/
theorem C8_sort_idempotent_witness :
    DataAsset.sort_batches "asset" [{ key := "k", reverse := false }]
        [Batch.mk [("k", some (1 : Int))], Batch.mk [("k", some 2)]] =
      .ok [Batch.mk [("k", some (1 : Int))], Batch.mk [("k", some 2)]] :=
  C8_sort_idempotent "asset" [{ key := "k", reverse := false }]
    [Batch.mk [("k", some (2 : Int))], Batch.mk [("k", some 1)]]
    [Batch.mk [("k", some (1 : Int))], Batch.mk [("k", some 2)]] (by decide)
